import Mathlib

/-!
Verification of the data-preprocessing library (src/preprocessing.py).

The Python functions are shallowly embedded in Lean 4:
* Python scalar values are the tagged type `Value` (integers, floats,
  strings, booleans, `None`, nested lists).  Python floats are idealised
  as exact rationals plus the special values `nan`, `inf`, `-inf`.
* Python `==` is the function `pyEq` (numeric cross-type equality,
  `nan != nan`, element-wise list comparison).
* Loops that append to a fresh list are embedded as `List.foldl` over an
  accumulator, mirroring the Python statement order.
* Purely numeric functions (`min_max_normalize`, `z_score_normalize`)
  are embedded over `ℚ` (and `ℝ` where a square root appears), the exact
  idealisation of float arithmetic.
* Character predicates model the ASCII fragment of Python's `re` module
  (`\w` = `[a-zA-Z0-9_]`, `str.lower` on ASCII letters).
-/

/-- Python float idealised: an exact rational, or one of the special
IEEE values `nan`, `inf`, `-inf`. -/
inductive PyFloat where
  | finite (q : ℚ)
  | nan
  | inf
  | ninf
deriving DecidableEq

/-- A Python scalar / list value as produced by `ast.literal_eval`:
integer, float, string, boolean, `None`, or a (possibly nested) list. -/
inductive Value where
  | int (n : ℤ)
  | float (x : PyFloat)
  | str (s : String)
  | bool (b : Bool)
  | none
  | list (l : List Value)

/-- Numeric view used by Python `==`: ints, bools and finite floats
compare by their rational value; `nan`, `inf`, `-inf` are special. -/
inductive NumVal where
  | rat (q : ℚ)
  | nan
  | inf
  | ninf
deriving DecidableEq

/-- The numeric value of a `Value`, if it is a number (Python treats
`bool` as a number: `True == 1`). -/
def numView : Value → Option NumVal
  | .int n => some (.rat (n : ℚ))
  | .bool b => some (.rat (if b then 1 else 0))
  | .float (.finite q) => some (.rat q)
  | .float .nan => some .nan
  | .float .inf => some .inf
  | .float .ninf => some .ninf
  | _ => Option.none

/-- Equality of numeric views: `nan` is equal to nothing (not even
itself), mirroring IEEE semantics used by Python `==`. -/
def numEq : NumVal → NumVal → Bool
  | .rat a, .rat b => a = b
  | .inf, .inf => true
  | .ninf, .ninf => true
  | _, _ => false

mutual
/-- Python `==` on embedded values: strings compare by content, `None`
equals only `None`, lists compare element-wise, numbers compare through
`numView`/`numEq`; everything else is unequal. -/
def pyEq : Value → Value → Bool
  | Value.str a, Value.str b => a = b
  | Value.none, Value.none => true
  | Value.list a, Value.list b => pyEqList a b
  | a, b =>
    match numView a, numView b with
    | some x, some y => numEq x y
    | _, _ => false

/-- Element-wise Python `==` on lists of values. -/
def pyEqList : List Value → List Value → Bool
  | [], [] => true
  | x :: xs, y :: ys => pyEq x y && pyEqList xs ys
  | _, _ => false
end

/-- `v is None` in Python. -/
def isNone : Value → Bool
  | .none => true
  | _ => false

/-- `isinstance(v, float) and math.isnan(v)` in Python. -/
def isFloatNan : Value → Bool
  | .float .nan => true
  | _ => false

/-- The missing-value predicate of `preprocessing.py`:
`v is None or v == "" or isinstance(v, float) and math.isnan(v)`. -/
def isMissing (v : Value) : Bool :=
  isNone v || pyEq v (.str "") || isFloatNan v

/-- `remove_missing_values`: the loop appends each non-missing element
to a fresh list `cleaned`. -/
def remove_missing_values (values : List Value) : List Value :=
  values.foldl (fun cleaned v => if isMissing v then cleaned else cleaned ++ [v]) []

/-- `fill_missing_values`: the loop appends `fill_value` for missing
elements and the element itself otherwise. -/
def fill_missing_values (values : List Value) (fill_value : Value) : List Value :=
  values.foldl
    (fun filled v => filled ++ [if isMissing v then fill_value else v]) []

/-- Python `v in uniques` membership test (by `==`; object identity is
not representable for pure data and coincides with `==` on it except for
`nan`, where both code paths below behave identically). -/
def pyMem (v : Value) (l : List Value) : Bool :=
  l.any fun u => pyEq v u

/-- `remove_duplicates`: the loop appends `v` to `uniques` whenever
`v not in uniques`. -/
def remove_duplicates (values : List Value) : List Value :=
  values.foldl (fun uniques v => if pyMem v uniques then uniques else uniques ++ [v]) []

/-- `min_max_normalize(values, new_min=0, new_max=1)` over exact
rationals.  Python `min`/`max` on a non-empty list left-fold the binary
operations over the elements. -/
def min_max_normalize (values : List ℚ) (new_min new_max : ℚ) : List ℚ :=
  match values with
  | [] => []
  | x :: xs =>
    let min_val := xs.foldl min x
    let max_val := xs.foldl max x
    if min_val = max_val then values.map fun _ => 0
    else values.map fun v =>
      (v - min_val) / (max_val - min_val) * (new_max - new_min) + new_min

/-- `sum(values) / len(values)` (true division; 0 on the empty list only
because the caller guards emptiness). -/
def mean (values : List ℚ) : ℚ := values.sum / values.length

/-- `sum((v - mean_val) ** 2 for v in values) / len(values)`: the
population variance (division by `n`, not `n - 1`). -/
def variance (values : List ℚ) : ℚ :=
  ((values.map fun v => (v - mean values) ^ 2).sum) / values.length

open Classical in
/-- `z_score_normalize(values)`: `std_dev = math.sqrt(variance)`; the
code branches on `std_dev == 0` and otherwise maps
`(v - mean_val) / std_dev`.  The square root lives in `ℝ`. -/
noncomputable def z_score_normalize (values : List ℚ) : List ℝ :=
  if values = [] then []
  else if Real.sqrt (variance values) = 0 then values.map fun _ => (0 : ℝ)
  else values.map fun (v : ℚ) =>
    ((v : ℝ) - (mean values : ℝ)) / Real.sqrt (variance values)

/-- A Python exception class relevant to `int(v)`. -/
inductive PyError where
  | valueError
  | typeError
  | overflowError
deriving DecidableEq

/-- Truncation toward zero: the value of Python `int(f)` on a finite
float `f`. -/
def ratTrunc (q : ℚ) : ℤ := if 0 ≤ q then ⌊q⌋ else ⌈q⌉

/-- Numeric value of a decimal digit run read left to right. -/
def digitsToNat (l : List Char) : ℕ :=
  l.foldl (fun a c => 10 * a + (c.toNat - '0'.toNat)) 0

/-- Python `int(s)` on a string: surrounding spaces stripped, an
optional sign, then a non-empty digit run; anything else raises
`ValueError`.  (Digit-grouping underscores are not modelled.) -/
def pyIntOfString (s : String) : Option ℤ :=
  let t := ((s.data.dropWhile (· = ' ')).reverse.dropWhile (· = ' ')).reverse
  match t with
  | '-' :: ds => if ds ≠ [] ∧ ds.all Char.isDigit then some (-(digitsToNat ds : ℤ)) else Option.none
  | '+' :: ds => if ds ≠ [] ∧ ds.all Char.isDigit then some (digitsToNat ds : ℤ) else Option.none
  | ds => if ds ≠ [] ∧ ds.all Char.isDigit then some (digitsToNat ds : ℤ) else Option.none

/-- Python `int(v)`: ints and bools convert exactly, finite floats
truncate toward zero, `nan` raises `ValueError`, the infinities raise
`OverflowError`, strings parse or raise `ValueError`, and every other
type raises `TypeError`. -/
def pyInt : Value → Except PyError ℤ
  | .int n => .ok n
  | .bool b => .ok (if b then 1 else 0)
  | .float (.finite q) => .ok (ratTrunc q)
  | .float .nan => .error .valueError
  | .float .inf => .error .overflowError
  | .float .ninf => .error .overflowError
  | .str s =>
    match pyIntOfString s with
    | some n => .ok n
    | Option.none => .error .valueError
  | .none => .error .typeError
  | .list _ => .error .typeError

/-- `to_integer_values`: the loop wraps `int(v)` in
`except (ValueError, TypeError): continue`, so those two exception
classes are skipped while any other exception propagates to the caller
and aborts the whole call. -/
def to_integer_values : List Value → Except PyError (List ℤ)
  | [] => .ok []
  | v :: rest =>
    match pyInt v with
    | .ok n => (to_integer_values rest).map fun l => n :: l
    | .error .valueError => to_integer_values rest
    | .error .typeError => to_integer_values rest
    | .error e => .error e

/-- The character class `[a-z0-9]` of the tokenizer regex. -/
def isTokChar (c : Char) : Bool := c.isLower || c.isDigit

/-- Python regex `\w` on ASCII text: `[a-zA-Z0-9_]`.  (The non-ASCII
Unicode word characters of Python's `re` are outside this model.) -/
def isWordChar (c : Char) : Bool := c.isAlphanum || c = '_'

/-- One left-to-right scan of `re.findall(r"\b[a-z0-9]+\b", s)`:
`prevWord` records whether the character before the current position is
a word character (`\b` holds where it differs from the next one).  At a
boundary before a `[a-z0-9]` character the engine takes the greedy run;
the match succeeds only if the run ends at a word boundary, since no
shorter run can (every proper prefix is followed by a word character).
On failure the engine advances one position. -/
def findTokensAux : Bool → List Char → List (List Char)
  | _, [] => []
  | prevWord, c :: rest =>
    if !prevWord && isTokChar c then
      let rest2 := (c :: rest).dropWhile isTokChar
      if rest2.head?.all (fun d => !isWordChar d) then
        ((c :: rest).takeWhile isTokChar) :: findTokensAux true rest2
      else
        findTokensAux (isWordChar c) rest
    else
      findTokensAux (isWordChar c) rest
termination_by _ l => l.length
decreasing_by
  all_goals simp_wf
  · rename_i hcond _hb
    have h1 : isTokChar c = true := by
      simp only [Bool.and_eq_true] at hcond
      exact hcond.2
    have h2 := (List.dropWhile_sublist (l := rest) isTokChar).length_le
    simp only [List.dropWhile_cons, h1, if_pos]
    omega

/-- `tokenize_text(texts)`: lowercase, then find all `\b[a-z0-9]+\b`
matches in order. -/
def tokenize_text (text : List Char) : List (List Char) :=
  findTokensAux false (text.map Char.toLower)

/-- The maximal runs of word characters of a string, in order: the
reference decomposition used to characterise the tokenizer. -/
def wordRuns : List Char → List (List Char)
  | [] => []
  | c :: rest =>
    if isWordChar c then
      ((c :: rest).takeWhile isWordChar) :: wordRuns ((c :: rest).dropWhile isWordChar)
    else wordRuns rest
termination_by l => l.length
decreasing_by
  all_goals simp_wf
  · rename_i h1
    have h2 := (List.dropWhile_sublist (l := rest) isWordChar).length_le
    simp only [List.dropWhile_cons, h1, if_pos]
    omega

/-- `select_alphanumeric_and_spaces(texts)`:
`re.sub(r"[^a-zA-Z0-9 ]+", "", texts)` deletes every maximal run of
characters outside `[a-zA-Z0-9 ]`, i.e. keeps exactly the characters of
that class. -/
def select_alphanumeric_and_spaces (text : List Char) : List Char :=
  text.filter fun c => c.isAlphanum || c = ' '

/-- `flatten_list(nested_list)`: list elements are expanded
recursively, every other element is appended as is. -/
def flatten_list : List Value → List Value
  | [] => []
  | .list l :: rest => flatten_list l ++ flatten_list rest
  | v :: rest => v :: flatten_list rest

/-- Does the value carry the Python `list` type? -/
def isList : Value → Bool
  | .list _ => true
  | _ => false

mutual
/-- The non-list leaves of a value, left to right (a non-list value is
its own single leaf). -/
def leaves : Value → List Value
  | .list l => leavesList l
  | v => [v]

/-- The non-list leaves of all values of a list, left to right. -/
def leavesList : List Value → List Value
  | [] => []
  | v :: rest => leaves v ++ leavesList rest
end

/-- Swap of two positions of a list, the effect of the Python statement
`x[i], x[j] = x[j], x[i]` (both reads happen before both writes; out of
range indices would raise in Python and are modelled as a no-op that
the shuffle loop never exercises). -/
def swapAt (l : List α) (i j : ℕ) : List α :=
  match l[i]?, l[j]? with
  | some a, some b => (l.set i b).set j a
  | _, _ => l

/-- The loop of `random.shuffle`: for `i` from `len - 1` down to `1`,
swap position `i` with a random position `j ≤ i`.  The random source is
an arbitrary function `r`; the drawn index is `r i % (i + 1)`, which
ranges over exactly `0..i`. -/
def shuffleSteps (r : ℕ → ℕ) : ℕ → List α → List α
  | 0, l => l
  | i + 1, l => shuffleSteps r i (swapAt l (i + 1) (r (i + 1) % (i + 2)))

/-- `random_shuffle_list(values)`: copy the list (`values[:]`) and run
the Fisher–Yates loop of `random.shuffle` on the copy. -/
def random_shuffle_list (r : ℕ → ℕ) (l : List α) : List α :=
  shuffleSteps r (l.length - 1) l

/-- A heap of Python list objects: cell `i` holds the contents of the
list object whose identity is `i`.  Used to express mutation (or its
absence) for the cleaning functions. -/
structure PyHeap where
  cells : List (List Value)

/-- Allocate a fresh empty-or-given list object (`cleaned = []`): the
new cell is appended; its identity is the old number of cells. -/
def PyHeap.alloc (h : PyHeap) (l : List Value) : PyHeap × ℕ :=
  (⟨h.cells ++ [l]⟩, h.cells.length)

/-- The contents of list object `r`. -/
def PyHeap.read (h : PyHeap) (r : ℕ) : List Value :=
  h.cells.getD r []

/-- Overwrite the contents of list object `r`. -/
def PyHeap.write (h : PyHeap) (r : ℕ) (l : List Value) : PyHeap :=
  ⟨h.cells.set r l⟩

/-- `obj.append(v)` on list object `r`: the only mutating statement in
the cleaning loops. -/
def PyHeap.push (h : PyHeap) (r : ℕ) (v : Value) : PyHeap :=
  h.write r (h.read r ++ [v])

/-- `remove_missing_values` at the heap level, statement by statement:
allocate `cleaned = []`, loop over the contents of the argument object
`r` appending every non-missing element to `cleaned`, and return the
final heap together with the identity of the returned object. -/
def remove_missing_heap (h : PyHeap) (r : ℕ) : PyHeap × ℕ :=
  let p := h.alloc []
  let h2 := (p.1.read r).foldl
    (fun hh v => if isMissing v then hh else hh.push p.2 v) p.1
  (h2, p.2)

/-- `fill_missing_values` at the heap level: allocate `filled = []` and
append `fill_value` or the element itself for each element of the
argument object `r`. -/
def fill_missing_heap (h : PyHeap) (r : ℕ) (fill_value : Value) : PyHeap × ℕ :=
  let p := h.alloc []
  let h2 := (p.1.read r).foldl
    (fun hh v => hh.push p.2 (if isMissing v then fill_value else v)) p.1
  (h2, p.2)

/-! ### Closed forms of the append loops -/

theorem remove_missing_foldl (l acc : List Value) :
    l.foldl (fun cleaned v => if isMissing v then cleaned else cleaned ++ [v]) acc
      = acc ++ l.filter fun v => !isMissing v := by
  induction l generalizing acc with
  | nil => simp
  | cons v rest ih =>
    cases hv : isMissing v with
    | true => simp [hv, ih]
    | false => simp [hv, ih]

theorem remove_missing_eq_filter (l : List Value) :
    remove_missing_values l = l.filter fun v => !isMissing v := by
  simpa using remove_missing_foldl l []

theorem fill_missing_foldl (x : Value) (l acc : List Value) :
    l.foldl (fun filled v => filled ++ [if isMissing v then x else v]) acc
      = acc ++ l.map fun v => if isMissing v then x else v := by
  induction l generalizing acc with
  | nil => simp
  | cons v rest ih => simp [ih]

theorem fill_missing_eq_map (l : List Value) (x : Value) :
    fill_missing_values l x = l.map fun v => if isMissing v then x else v := by
  simpa [fill_missing_values] using fill_missing_foldl x l []

theorem isMissing_iff (v : Value) :
    isMissing v = true
      ↔ v = Value.none ∨ v = Value.str "" ∨ v = Value.float PyFloat.nan := by
  cases v with
  | int n => simp [isMissing, isNone, isFloatNan, pyEq, numView]
  | float x => cases x <;> simp [isMissing, isNone, isFloatNan, pyEq, numView]
  | str s => simp [isMissing, isNone, isFloatNan, pyEq, numView]
  | bool b => simp [isMissing, isNone, isFloatNan, pyEq, numView]
  | none => simp [isMissing, isNone]
  | list l => simp [isMissing, isNone, isFloatNan, pyEq, numView]

/-- C5: `fill_missing_values(L, x)` returns a list of exactly length
`len(L)` whose element at each index `i` equals `x` when `L[i]` is
missing (`None`, the empty string, or the float `nan`) and equals
`L[i]` otherwise. -/
theorem fill_missing_values_spec (L : List Value) (x : Value) :
    (fill_missing_values L x).length = L.length
    ∧ (∀ v, isMissing v = true
        ↔ v = Value.none ∨ v = Value.str "" ∨ v = Value.float PyFloat.nan)
    ∧ ∀ i (hi : i < L.length) (hi2 : i < (fill_missing_values L x).length),
        (fill_missing_values L x).get ⟨i, hi2⟩
          = if isMissing (L.get ⟨i, hi⟩) then x else L.get ⟨i, hi⟩ := by
  refine ⟨by rw [fill_missing_eq_map]; simp, isMissing_iff, ?_⟩
  intro i hi hi2
  rw [List.get_eq_getElem, List.get_eq_getElem]
  simp only [fill_missing_eq_map, List.getElem_map]

/-- Witness for C5 at the concrete input `[None, 3]`, fill value `9`. -/
theorem fill_missing_values_spec_witness :
    (fill_missing_values [Value.none, Value.int 3] (Value.int 9)).get
        ⟨0, by decide⟩ = Value.int 9 := by
  have h := (fill_missing_values_spec [Value.none, Value.int 3] (Value.int 9)).2.2
    0 (by decide) (by decide)
  simpa [isMissing, isNone] using h

/-! ### Deduplication -/

theorem dedup_foldl_pairwise (l : List Value) :
    ∀ acc : List Value, acc.Pairwise (fun a b => pyEq b a = false) →
      (l.foldl (fun uniques v => if pyMem v uniques then uniques else uniques ++ [v])
        acc).Pairwise (fun a b => pyEq b a = false) := by
  induction l with
  | nil => intro acc h; simpa using h
  | cons v rest ih =>
    intro acc h
    cases hm : pyMem v acc with
    | true => simpa [hm] using ih acc h
    | false =>
      simp only [List.foldl_cons, hm, Bool.false_eq_true, if_false]
      refine ih (acc ++ [v]) ?_
      rw [List.pairwise_append]
      refine ⟨h, by simp, ?_⟩
      intro a ha b hb
      simp only [List.mem_singleton] at hb
      rw [hb]
      have hx := List.any_eq_false.mp (by simpa [pyMem] using hm) a ha
      simpa using hx

theorem dedup_foldl_fixed (l : List Value) :
    ∀ acc : List Value, (∀ v ∈ l, pyMem v acc = false) →
      l.Pairwise (fun a b => pyEq b a = false) →
      l.foldl (fun uniques v => if pyMem v uniques then uniques else uniques ++ [v]) acc
        = acc ++ l := by
  induction l with
  | nil => intro acc _ _; simp
  | cons v rest ih =>
    intro acc hmem hpw
    have hv : pyMem v acc = false := hmem v (by simp)
    simp only [List.foldl_cons, hv, Bool.false_eq_true, if_false]
    have hrest : ∀ u ∈ rest, pyMem u (acc ++ [v]) = false := by
      intro u hu
      have h1 : pyMem u acc = false := hmem u (by simp [hu])
      have h2 : pyEq u v = false := (List.pairwise_cons.mp hpw).1 u hu
      have h3 : pyMem u (acc ++ [v]) = (pyMem u acc || pyEq u v) := by
        simp [pyMem, List.any_append]
      rw [h3, h1, h2]
      rfl
    have := ih (acc ++ [v]) hrest (List.pairwise_cons.mp hpw).2
    simpa using this

theorem dedup_foldl_sublist (l : List Value) :
    ∀ acc : List Value, ∃ u, u.Sublist l ∧
      l.foldl (fun uniques v => if pyMem v uniques then uniques else uniques ++ [v]) acc
        = acc ++ u := by
  induction l with
  | nil => intro acc; exact ⟨[], by simp, by simp⟩
  | cons v rest ih =>
    intro acc
    cases hm : pyMem v acc with
    | true =>
      obtain ⟨u, hsub, heq⟩ := ih acc
      exact ⟨u, hsub.cons v, by simpa [hm] using heq⟩
    | false =>
      obtain ⟨u, hsub, heq⟩ := ih (acc ++ [v])
      refine ⟨v :: u, hsub.cons₂ v, ?_⟩
      simpa [hm] using heq

/-- C6: `remove_duplicates` is idempotent; its output is in
first-occurrence order (a sublist of the input) with pairwise
`==`-distinct elements. -/
theorem remove_duplicates_spec (L : List Value) :
    remove_duplicates (remove_duplicates L) = remove_duplicates L
    ∧ (remove_duplicates L).Pairwise (fun a b => pyEq b a = false)
    ∧ (remove_duplicates L).Sublist L
    ∧ remove_duplicates
        [Value.int 1, Value.int 2, Value.int 2, Value.int 3, Value.int 1,
          Value.int 4, Value.int 5, Value.int 3]
        = [Value.int 1, Value.int 2, Value.int 3, Value.int 4, Value.int 5] := by
  have hpw : (remove_duplicates L).Pairwise (fun a b => pyEq b a = false) :=
    dedup_foldl_pairwise L [] (by simp)
  refine ⟨?_, hpw, ?_, by rfl⟩
  · have := dedup_foldl_fixed (remove_duplicates L) []
      (by intro v _; simp [pyMem]) hpw
    simpa [remove_duplicates] using this
  · obtain ⟨u, hsub, heq⟩ := dedup_foldl_sublist L []
    have : remove_duplicates L = u := by simpa [remove_duplicates] using heq
    rw [this]
    exact hsub

/-! ### Min/max folds (Python `min(values)` / `max(values)`) -/

theorem foldl_min_le_init (xs : List ℚ) (x : ℚ) : xs.foldl min x ≤ x := by
  induction xs generalizing x with
  | nil => simp
  | cons y ys ih => exact le_trans (ih (min x y)) (min_le_left x y)

theorem foldl_min_mem (xs : List ℚ) (x : ℚ) : xs.foldl min x ∈ x :: xs := by
  induction xs generalizing x with
  | nil => simp
  | cons y ys ih =>
    simp only [List.foldl_cons]
    rcases List.mem_cons.mp (ih (min x y)) with h1 | h1
    · rcases min_choice x y with hc | hc
      · rw [h1, hc]; simp
      · rw [h1, hc]; simp
    · simp [h1]

theorem foldl_min_le (xs : List ℚ) (x : ℚ) : ∀ v ∈ x :: xs, xs.foldl min x ≤ v := by
  induction xs generalizing x with
  | nil =>
    intro v hv
    simp only [List.mem_singleton] at hv
    simp [hv]
  | cons y ys ih =>
    intro v hv
    simp only [List.foldl_cons]
    rcases List.mem_cons.mp hv with h1 | h1
    · exact le_trans (le_trans (foldl_min_le_init ys (min x y)) (min_le_left x y))
        (le_of_eq h1.symm)
    · rcases List.mem_cons.mp h1 with h2 | h2
      · exact le_trans (le_trans (foldl_min_le_init ys (min x y)) (min_le_right x y))
          (le_of_eq h2.symm)
      · exact ih (min x y) v (List.mem_cons_of_mem _ h2)

theorem foldl_max_init_le (xs : List ℚ) (x : ℚ) : x ≤ xs.foldl max x := by
  induction xs generalizing x with
  | nil => simp
  | cons y ys ih => exact le_trans (le_max_left x y) (ih (max x y))

theorem foldl_max_mem (xs : List ℚ) (x : ℚ) : xs.foldl max x ∈ x :: xs := by
  induction xs generalizing x with
  | nil => simp
  | cons y ys ih =>
    simp only [List.foldl_cons]
    rcases List.mem_cons.mp (ih (max x y)) with h1 | h1
    · rcases max_choice x y with hc | hc
      · rw [h1, hc]; simp
      · rw [h1, hc]; simp
    · simp [h1]

theorem foldl_le_max (xs : List ℚ) (x : ℚ) : ∀ v ∈ x :: xs, v ≤ xs.foldl max x := by
  induction xs generalizing x with
  | nil =>
    intro v hv
    simp only [List.mem_singleton] at hv
    simp [hv]
  | cons y ys ih =>
    intro v hv
    simp only [List.foldl_cons]
    rcases List.mem_cons.mp hv with h1 | h1
    · exact le_trans (le_of_eq h1) (le_trans (le_max_left x y) (foldl_max_init_le ys (max x y)))
    · rcases List.mem_cons.mp h1 with h2 | h2
      · exact le_trans (le_of_eq h2)
          (le_trans (le_max_right x y) (foldl_max_init_le ys (max x y)))
      · exact ih (max x y) v (List.mem_cons_of_mem _ h2)

theorem min_max_normalize_cons (x0 : ℚ) (xs : List ℚ) (new_min new_max : ℚ) :
    min_max_normalize (x0 :: xs) new_min new_max
      = if xs.foldl min x0 = xs.foldl max x0 then (x0 :: xs).map fun _ => (0 : ℚ)
        else (x0 :: xs).map fun v =>
          (v - xs.foldl min x0) / (xs.foldl max x0 - xs.foldl min x0)
            * (new_max - new_min) + new_min := rfl

/-- C1: `min_max_normalize` maps the empty list to the empty list, an
all-equal list to the all-zero list of the same length (whatever
`new_min` is), and otherwise rescales each position by
`(v - min)/(max - min) * (new_max - new_min) + new_min` where `min` and
`max` are a least and a greatest element of the input; on the two
concrete inputs of the specification it returns the stated outputs. -/
theorem min_max_normalize_spec (values : List ℚ) (new_min new_max : ℚ) :
    min_max_normalize [] new_min new_max = []
    ∧ ((∃ x, values ≠ [] ∧ ∀ v ∈ values, v = x) →
        min_max_normalize values new_min new_max = values.map fun _ => 0)
    ∧ ((∃ a ∈ values, ∃ b ∈ values, a ≠ b) →
        ∃ m M, m ∈ values ∧ M ∈ values ∧ (∀ v ∈ values, m ≤ v ∧ v ≤ M) ∧
          min_max_normalize values new_min new_max
            = values.map fun v => (v - m) / (M - m) * (new_max - new_min) + new_min)
    ∧ min_max_normalize [10, 20, 30, 40, 50] 0 1 = [0, 1/4, 1/2, 3/4, 1]
    ∧ min_max_normalize [5, 5, 5] 0 1 = [0, 0, 0] := by
  refine ⟨rfl, ?_, ?_, by rw [min_max_normalize_cons]; norm_num [min_def, max_def],
    by rw [min_max_normalize_cons]; norm_num⟩
  · rintro ⟨x, hne, hall⟩
    cases values with
    | nil => exact absurd rfl hne
    | cons x0 xs =>
      have h1 : xs.foldl min x0 = x := hall _ (foldl_min_mem xs x0)
      have h2 : xs.foldl max x0 = x := hall _ (foldl_max_mem xs x0)
      rw [min_max_normalize_cons, if_pos (by rw [h1, h2])]
  · rintro ⟨a, ha, b, hb, hab⟩
    cases values with
    | nil => simp at ha
    | cons x0 xs =>
      refine ⟨xs.foldl min x0, xs.foldl max x0, foldl_min_mem xs x0, foldl_max_mem xs x0,
        fun v hv => ⟨foldl_min_le xs x0 v hv, foldl_le_max xs x0 v hv⟩, ?_⟩
      have hne : xs.foldl min x0 ≠ xs.foldl max x0 := by
        intro heq
        apply hab
        have hha := le_antisymm (le_trans (foldl_le_max xs x0 a ha) heq.symm.le)
          (foldl_min_le xs x0 a ha)
        have hhb := le_antisymm (le_trans (foldl_le_max xs x0 b hb) heq.symm.le)
          (foldl_min_le xs x0 b hb)
        exact hha.trans hhb.symm
      rw [min_max_normalize_cons, if_neg hne]

/-- Witness for C1: the all-equal branch at `[5,5,5]` with
`new_min = 5` (output still all-zero), and the generic branch at
`[10,20,30,40,50]`. -/
theorem min_max_normalize_spec_witness :
    min_max_normalize [5, 5, 5] 5 7 = [0, 0, 0]
    ∧ (min_max_normalize [10, 20, 30, 40, 50] 0 1).length = 5 := by
  constructor
  · have h := (min_max_normalize_spec [5, 5, 5] 5 7).2.1 ⟨5, by decide, by decide⟩
    simpa using h
  · obtain ⟨m, M, _, _, _, heq⟩ := (min_max_normalize_spec [10, 20, 30, 40, 50] 0 1).2.2.1
      ⟨10, by decide, 20, by decide, by decide⟩
    rw [heq]
    simp

/-! ### Z-score normalization -/

theorem variance_nonneg (l : List ℚ) : 0 ≤ variance l := by
  unfold variance
  apply div_nonneg
  · apply List.sum_nonneg
    intro x hx
    obtain ⟨v, _, rfl⟩ := List.mem_map.mp hx
    positivity
  · exact Nat.cast_nonneg _

theorem sqrt_variance_eq_zero_iff (l : List ℚ) :
    Real.sqrt (variance l) = 0 ↔ variance l = 0 := by
  rw [Real.sqrt_eq_zero']
  constructor
  · intro h
    have h2 : (0 : ℝ) ≤ (variance l : ℝ) := by exact_mod_cast variance_nonneg l
    exact_mod_cast le_antisymm h h2
  · intro h
    rw [h]
    simp

theorem sum_map_sub_const (l : List ℚ) (c : ℚ) :
    (l.map fun v => v - c).sum = l.sum - l.length * c := by
  induction l with
  | nil => simp
  | cons x xs ih =>
    simp only [List.map_cons, List.sum_cons, ih, List.length_cons]
    push_cast
    ring

theorem sum_map_sub_div (l : List ℚ) (m : ℚ) (c : ℝ) :
    (l.map fun (v : ℚ) => ((v : ℝ) - (m : ℝ)) / c).sum
      = (((l.map fun v => v - m).sum : ℚ) : ℝ) / c := by
  induction l with
  | nil => simp
  | cons x xs ih =>
    simp only [List.map_cons, List.sum_cons, ih]
    push_cast
    ring

/-- C2: `z_score_normalize` maps the empty list to the empty list,
preserves length, uses the population variance (division by `n`: on
`[1,2,3,4,5]` the variance is `2`, not the sample value `5/2`), returns
all zeros when the standard deviation `sqrt(variance)` is zero (which
happens exactly when the variance is zero), otherwise maps
`(v - mean)/std`, and the output of any non-empty list sums (hence
averages) to exactly `0` over the reals. -/
theorem z_score_normalize_spec (values : List ℚ) :
    z_score_normalize [] = []
    ∧ (z_score_normalize values).length = values.length
    ∧ (Real.sqrt (variance values) = 0 ↔ variance values = 0)
    ∧ (Real.sqrt (variance values) = 0 → ∀ r ∈ z_score_normalize values, r = 0)
    ∧ (Real.sqrt (variance values) ≠ 0 →
        z_score_normalize values
          = values.map fun (v : ℚ) =>
              ((v : ℝ) - (mean values : ℝ)) / Real.sqrt (variance values))
    ∧ (values ≠ [] → (z_score_normalize values).sum = 0)
    ∧ variance [1, 2, 3, 4, 5] = 2 := by
  have hmap : ∀ c : ℝ, c ≠ 0 → values ≠ [] →
      (values.map fun (v : ℚ) => ((v : ℝ) - (mean values : ℝ)) / c).sum = 0 := by
    intro c _ hne
    rw [sum_map_sub_div values (mean values) c, sum_map_sub_const]
    have hlen : (values.length : ℚ) ≠ 0 := by
      have h0 : values.length ≠ 0 := by simpa using hne
      exact_mod_cast h0
    have hz : values.sum - (values.length : ℚ) * mean values = 0 := by
      unfold mean
      field_simp
    rw [hz]
    simp
  refine ⟨by simp [z_score_normalize], ?_, sqrt_variance_eq_zero_iff values, ?_, ?_, ?_,
    by norm_num [variance, mean]⟩
  · unfold z_score_normalize
    split
    · simp_all
    · split <;> simp
  · intro h r hr
    unfold z_score_normalize at hr
    by_cases hne : values = []
    · simp [hne] at hr
    · rw [if_neg hne, if_pos h] at hr
      obtain ⟨v, _, rfl⟩ := List.mem_map.mp hr
      rfl
  · intro h
    by_cases hne : values = []
    · simp [hne, z_score_normalize]
    · unfold z_score_normalize
      rw [if_neg hne, if_neg h]
  · intro hne
    by_cases hs : Real.sqrt (variance values) = 0
    · unfold z_score_normalize
      rw [if_neg hne, if_pos hs]
      simp
    · unfold z_score_normalize
      rw [if_neg hne, if_neg hs]
      exact hmap _ hs hne

/-- Witness for C2: the mean-zero property at `[1,2,3,4,5]`, the
zero-deviation branch at `[5,5]`, and the generic branch at `[1,2]`. -/
theorem z_score_normalize_spec_witness :
    (z_score_normalize [1, 2, 3, 4, 5]).sum = 0
    ∧ (∀ r ∈ z_score_normalize [5, 5], r = 0)
    ∧ z_score_normalize [1, 2]
        = [1, 2].map fun (v : ℚ) =>
            ((v : ℝ) - (mean [1, 2] : ℝ)) / Real.sqrt (variance [1, 2]) := by
  refine ⟨(z_score_normalize_spec [1, 2, 3, 4, 5]).2.2.2.2.2.1 (by simp), ?_, ?_⟩
  · apply (z_score_normalize_spec [5, 5]).2.2.2.1
    have hv : variance [5, 5] = 0 := by norm_num [variance, mean]
    rw [hv]
    simp
  · apply (z_score_normalize_spec [1, 2]).2.2.2.2.1
    have hv : variance [1, 2] = 1 / 4 := by norm_num [variance, mean]
    rw [hv]
    rw [Real.sqrt_ne_zero']
    push_cast
    norm_num

/-! ### Integer casting -/

/-- C4 (behaviour at the bug): elements of the specification's example
convert or are skipped exactly as claimed, and `ValueError` /
`TypeError` elements are always skipped — but a non-finite infinite
float raises `OverflowError`, which the `except (ValueError, TypeError)`
clause does not catch, so the call aborts instead of dropping the
element. -/
theorem to_integer_values_spec :
    to_integer_values [Value.float PyFloat.inf] = Except.error PyError.overflowError
    ∧ to_integer_values
        [Value.float (PyFloat.finite 1), Value.float (PyFloat.finite (5/2)),
         Value.float (PyFloat.finite (39/10)), Value.float (PyFloat.finite (-21/5)),
         Value.str "5", Value.none]
        = Except.ok [1, 2, 3, -4, 5]
    ∧ (∀ v rest n, pyInt v = Except.ok n →
        to_integer_values (v :: rest) = (to_integer_values rest).map fun l => n :: l)
    ∧ (∀ v rest, pyInt v = Except.error PyError.valueError →
        to_integer_values (v :: rest) = to_integer_values rest)
    ∧ (∀ v rest, pyInt v = Except.error PyError.typeError →
        to_integer_values (v :: rest) = to_integer_values rest)
    ∧ ∀ v rest, pyInt v = Except.error PyError.overflowError →
        to_integer_values (v :: rest) = Except.error PyError.overflowError := by
  refine ⟨rfl, ?_, ?_, ?_, ?_, ?_⟩
  · have h1 : pyInt (Value.float (PyFloat.finite 1)) = Except.ok 1 := by
      norm_num [pyInt, ratTrunc]
    have h2 : pyInt (Value.float (PyFloat.finite (5/2))) = Except.ok 2 := by
      norm_num [pyInt, ratTrunc]
    have h3 : pyInt (Value.float (PyFloat.finite (39/10))) = Except.ok 3 := by
      norm_num [pyInt, ratTrunc]
    have h4 : pyInt (Value.float (PyFloat.finite (-21/5))) = Except.ok (-4) := by
      norm_num [pyInt, ratTrunc, Int.ceil_neg]
    have h5 : pyInt (Value.str "5") = Except.ok 5 := by rfl
    have h6 : pyInt Value.none = Except.error PyError.typeError := by rfl
    simp [to_integer_values, h1, h2, h3, h4, h5, h6, Except.map]
  · intro v rest n h
    simp [to_integer_values, h]
  · intro v rest h
    simp [to_integer_values, h]
  · intro v rest h
    simp [to_integer_values, h]
  · intro v rest h
    simp [to_integer_values, h]

/-- Witness for C4: the skip clauses applied at `nan` (ValueError),
`None` (TypeError) and the success clause at `int 7`; the overflow
clause applied at `inf`. -/
theorem to_integer_values_spec_witness :
    to_integer_values [Value.float PyFloat.nan, Value.int 3] = Except.ok [3]
    ∧ to_integer_values [Value.none, Value.int 3] = Except.ok [3]
    ∧ to_integer_values [Value.int 7] = Except.ok [7]
    ∧ to_integer_values [Value.float PyFloat.inf, Value.int 3]
        = Except.error PyError.overflowError := by
  refine ⟨?_, ?_, ?_, ?_⟩
  · rw [(to_integer_values_spec).2.2.2.1 (Value.float PyFloat.nan) [Value.int 3] rfl]
    rfl
  · rw [(to_integer_values_spec).2.2.2.2.1 Value.none [Value.int 3] rfl]
    rfl
  · rw [(to_integer_values_spec).2.2.1 (Value.int 7) [] 7 rfl]
    rfl
  · rw [(to_integer_values_spec).2.2.2.2.2 (Value.float PyFloat.inf) [Value.int 3] rfl]

/-! ### Flattening -/

theorem flatten_eq_leavesList (l : List Value) : flatten_list l = leavesList l := by
  induction l using flatten_list.induct with
  | case1 => simp [flatten_list, leavesList]
  | case2 l rest ih1 ih2 => simp [flatten_list, leavesList, leaves, ih1, ih2]
  | _ => simp_all [flatten_list, leavesList, leaves]

theorem flatten_no_list (l : List Value) : ∀ v ∈ flatten_list l, isList v = false := by
  induction l using flatten_list.induct with
  | case1 => simp [flatten_list]
  | case2 l rest ih1 ih2 =>
    intro v hv
    rw [show flatten_list (Value.list l :: rest) = flatten_list l ++ flatten_list rest
      from by simp [flatten_list]] at hv
    rcases List.mem_append.mp hv with h | h
    · exact ih1 v h
    · exact ih2 v h
  | _ =>
    intro v hv
    simp_all [flatten_list, isList]
    rcases hv with h | h
    · simp [h, isList]
    · simp_all

/-- C7: `flatten_list` (a total function, hence terminating) returns
the non-list leaves of the nested input in left-to-right order, its
output contains no list value, and the specification's example
flattens as stated. -/
theorem flatten_list_spec (L : List Value) :
    flatten_list L = leavesList L
    ∧ (∀ v ∈ flatten_list L, isList v = false)
    ∧ flatten_list
        [Value.int 1, Value.list [Value.int 2, Value.int 3],
         Value.list [Value.int 4, Value.list [Value.int 5, Value.int 6]], Value.int 7]
      = [Value.int 1, Value.int 2, Value.int 3, Value.int 4, Value.int 5, Value.int 6,
         Value.int 7] := by
  refine ⟨flatten_eq_leavesList L, flatten_no_list L, ?_⟩
  simp [flatten_list]

/-! ### Character selection -/

/-- C10: `select_alphanumeric_and_spaces` keeps exactly the ASCII
letters, digits and spaces as a subsequence of the input, and is
therefore idempotent; the specification's example evaluates as stated
(note the preserved trailing space). -/
theorem select_alphanumeric_and_spaces_spec (s : List Char) :
    select_alphanumeric_and_spaces (select_alphanumeric_and_spaces s)
        = select_alphanumeric_and_spaces s
    ∧ (select_alphanumeric_and_spaces s).Sublist s
    ∧ (∀ c ∈ select_alphanumeric_and_spaces s, c.isAlphanum || c = ' ')
    ∧ select_alphanumeric_and_spaces ("Hello, world! 123 @#$$%^&*()_+".data)
        = "Hello world 123 ".data := by
  refine ⟨?_, List.filter_sublist _, ?_, by rfl⟩
  · simp [select_alphanumeric_and_spaces, List.filter_filter]
  · intro c hc
    exact (List.mem_filter.mp hc).2

/-! ### Shuffling -/

theorem get_cons_set_perm (xs : List α) (x : α) :
    ∀ j (hj : j < xs.length), (xs.get ⟨j, hj⟩ :: xs.set j x).Perm (x :: xs) := by
  induction xs with
  | nil => intro j hj; simp at hj
  | cons y ys ih =>
    intro j hj
    cases j with
    | zero => exact List.Perm.swap x y ys
    | succ j =>
      have hj2 : j < ys.length := by simpa using hj
      exact ((List.Perm.swap y (ys.get ⟨j, hj2⟩) (ys.set j x)).trans
        ((ih j hj2).cons y)).trans (List.Perm.swap x y ys)

theorem set_set_swap_perm (l : List α) :
    ∀ (i j : ℕ) (hi : i < l.length) (hj : j < l.length),
      ((l.set i (l.get ⟨j, hj⟩)).set j (l.get ⟨i, hi⟩)).Perm l := by
  induction l with
  | nil => intro i j hi _; simp at hi
  | cons x xs ih =>
    intro i j hi hj
    match i, j with
    | 0, 0 => simp
    | 0, j + 1 =>
      have hj2 : j < xs.length := by simpa using hj
      simpa using get_cons_set_perm xs x j hj2
    | i + 1, 0 =>
      have hi2 : i < xs.length := by simpa using hi
      simpa using get_cons_set_perm xs x i hi2
    | i + 1, j + 1 =>
      have hi2 : i < xs.length := by simpa using hi
      have hj2 : j < xs.length := by simpa using hj
      simpa using (ih i j hi2 hj2).cons x

theorem swapAt_perm (l : List α) (i j : ℕ) : (swapAt l i j).Perm l := by
  unfold swapAt
  split
  · rename_i a b hi hj
    obtain ⟨hi2, ha⟩ := List.getElem?_eq_some.mp hi
    obtain ⟨hj2, hb⟩ := List.getElem?_eq_some.mp hj
    subst ha hb
    exact set_set_swap_perm l i j hi2 hj2
  · exact List.Perm.refl l

theorem shuffleSteps_perm (r : ℕ → ℕ) : ∀ (n : ℕ) (l : List α), (shuffleSteps r n l).Perm l := by
  intro n
  induction n with
  | zero => intro l; exact List.Perm.refl l
  | succ n ih => intro l; exact (ih _).trans (swapAt_perm l _ _)

/-- C8: for every input list and every state of the random source,
`random_shuffle_list` returns a permutation of the input — the same
multiset of elements (`sorted(result) == sorted(L)`).  The input list
itself is copied (`values[:]`) before shuffling and is never written. -/
theorem random_shuffle_list_spec (r : ℕ → ℕ) (L : List α) :
    (random_shuffle_list r L).Perm L
    ∧ (random_shuffle_list r L : Multiset α) = (L : Multiset α) := by
  have h := shuffleSteps_perm r (L.length - 1) L
  exact ⟨h, Quot.sound h⟩

/-! ### Tokenization -/

theorem tok_isWord {c : Char} (h : isTokChar c = true) : isWordChar c = true := by
  rcases Bool.or_eq_true_iff.mp (by simpa [isTokChar] using h) with h1 | h1 <;>
    simp [isWordChar, Char.isAlphanum, Char.isAlpha, h1]

theorem wordRuns_nil : wordRuns [] = [] := by
  simp [wordRuns]

theorem wordRuns_cons (c : Char) (rest : List Char) :
    wordRuns (c :: rest)
      = if isWordChar c
        then ((c :: rest).takeWhile isWordChar) :: wordRuns ((c :: rest).dropWhile isWordChar)
        else wordRuns rest := by
  rw [wordRuns]

theorem findTokensAux_nil (b : Bool) : findTokensAux b [] = [] := by
  rw [findTokensAux]

theorem findTokensAux_cons (b : Bool) (c : Char) (rest : List Char) :
    findTokensAux b (c :: rest)
      = if !b && isTokChar c then
          if ((c :: rest).dropWhile isTokChar).head?.all (fun d => !isWordChar d) then
            ((c :: rest).takeWhile isTokChar)
              :: findTokensAux true ((c :: rest).dropWhile isTokChar)
          else findTokensAux (isWordChar c) rest
        else findTokensAux (isWordChar c) rest := by
  rw [findTokensAux]

theorem head?_dropWhile_not (p : Char → Bool) (l : List Char) :
    ∀ d, (l.dropWhile p).head? = some d → p d = false := by
  induction l with
  | nil => intro d h; simp at h
  | cons c rest ih =>
    intro d h
    rw [List.dropWhile_cons] at h
    cases hc : p c with
    | true => rw [hc] at h; simp only [if_true] at h; exact ih d h
    | false =>
      rw [hc] at h
      simp only [Bool.false_eq_true, if_false, List.head?_cons, Option.some.injEq] at h
      rw [← h]
      exact hc

theorem take_drop_word_eq_tok (l : List Char)
    (hb : (l.dropWhile isTokChar).head?.all (fun d => !isWordChar d) = true) :
    l.takeWhile isWordChar = l.takeWhile isTokChar
    ∧ l.dropWhile isWordChar = l.dropWhile isTokChar := by
  induction l with
  | nil => simp
  | cons c rest ih =>
    cases hc : isTokChar c with
    | true =>
      have hw := tok_isWord hc
      have hb2 : (rest.dropWhile isTokChar).head?.all (fun d => !isWordChar d) = true := by
        rw [List.dropWhile_cons, hc] at hb
        simpa using hb
      obtain ⟨h1, h2⟩ := ih hb2
      constructor
      · rw [List.takeWhile_cons, List.takeWhile_cons, hc, hw]
        simp [h1]
      · rw [List.dropWhile_cons, List.dropWhile_cons, hc, hw]
        simpa using h2
    | false =>
      have hw : isWordChar c = false := by
        rw [List.dropWhile_cons, hc] at hb
        simpa using hb
      constructor
      · rw [List.takeWhile_cons, List.takeWhile_cons, hc, hw]
        simp
      · rw [List.dropWhile_cons, List.dropWhile_cons, hc, hw]
        simp

theorem mem_takeWhile_word_of_head (l : List Char) (d : Char)
    (hw : isWordChar d = true) :
    (l.dropWhile isTokChar).head? = some d → d ∈ l.takeWhile isWordChar := by
  induction l with
  | nil => intro h; simp at h
  | cons c rest ih =>
    intro hd
    rw [List.dropWhile_cons] at hd
    cases hc : isTokChar c with
    | true =>
      rw [hc] at hd
      simp only [if_true] at hd
      rw [List.takeWhile_cons, tok_isWord hc]
      simp only [if_true, List.mem_cons]
      exact Or.inr (ih hd)
    | false =>
      rw [hc] at hd
      simp only [Bool.false_eq_true, if_false, List.head?_cons, Option.some.injEq] at hd
      rw [← hd] at hw ⊢
      rw [List.takeWhile_cons, hw]
      simp

theorem findTokensAux_eq (n : ℕ) : ∀ l : List Char, l.length ≤ n →
    (findTokensAux false l = (wordRuns l).filter fun r => r.all isTokChar)
    ∧ (findTokensAux true l
        = (wordRuns (l.dropWhile isWordChar)).filter fun r => r.all isTokChar) := by
  induction n with
  | zero =>
    intro l hl
    have h0 : l = [] := List.length_eq_zero.mp (Nat.le_zero.mp hl)
    subst h0
    simp [findTokensAux_nil, wordRuns_nil]
  | succ n ih =>
    intro l hl
    cases l with
    | nil => simp [findTokensAux_nil, wordRuns_nil]
    | cons c rest =>
      have hrest : rest.length ≤ n := by simpa using hl
      constructor
      · rw [findTokensAux_cons]
        cases hc : isTokChar c with
        | false =>
          rw [if_neg (by simp : ¬((!false && false) = true))]
          cases hw : isWordChar c with
          | false =>
            rw [wordRuns_cons, if_neg (by simp [hw])]
            exact (ih rest hrest).1
          | true =>
            have hWmem : c ∈ (c :: rest).takeWhile isWordChar := by
              rw [List.takeWhile_cons, hw]
              simp
            have hWall : (((c :: rest).takeWhile isWordChar).all isTokChar) = false := by
              rw [Bool.eq_false_iff]
              intro habs
              have hcontra := List.all_eq_true.mp habs c hWmem
              rw [hc] at hcontra
              simp at hcontra
            rw [wordRuns_cons, if_pos (by simp [hw]), List.filter_cons]
            simp only [hWall, Bool.false_eq_true, if_false]
            rw [show (c :: rest).dropWhile isWordChar = rest.dropWhile isWordChar from
              by rw [List.dropWhile_cons, hw]; simp]
            exact (ih rest hrest).2
        | true =>
          have hw : isWordChar c = true := tok_isWord hc
          rw [if_pos (by simp : (!false && true) = true)]
          cases hb : ((c :: rest).dropWhile isTokChar).head?.all (fun d => !isWordChar d) with
          | true =>
            rw [if_pos (rfl : (true : Bool) = true)]
            obtain ⟨hteq, hdeq⟩ := take_drop_word_eq_tok (c :: rest) hb
            rw [wordRuns_cons, if_pos (by simp [hw]), hteq, hdeq, List.filter_cons,
              if_pos (by simp [List.all_takeWhile])]
            congr 1
            have hlen2 : ((c :: rest).dropWhile isTokChar).length ≤ n := by
              rw [List.dropWhile_cons, hc]
              simp only [if_true]
              exact le_trans (List.dropWhile_sublist isTokChar).length_le hrest
            rw [(ih _ hlen2).2]
            have hfix : ((c :: rest).dropWhile isTokChar).dropWhile isWordChar
                = (c :: rest).dropWhile isTokChar := by
              cases hL2 : (c :: rest).dropWhile isTokChar with
              | nil => simp
              | cons d tail =>
                rw [List.dropWhile_cons]
                have hdw : isWordChar d = false := by
                  rw [hL2] at hb
                  simpa using hb
                rw [hdw]
                simp
            rw [hfix]
          | false =>
            rw [if_neg (by simp : ¬((false : Bool) = true)), hw]
            obtain ⟨d, hd, hwd⟩ :
                ∃ d, ((c :: rest).dropWhile isTokChar).head? = some d
                  ∧ isWordChar d = true := by
              cases hL2 : (c :: rest).dropWhile isTokChar with
              | nil => rw [hL2] at hb; simp at hb
              | cons d tail =>
                refine ⟨d, by simp, ?_⟩
                rw [hL2] at hb
                simpa using hb
            have hdmem : d ∈ (c :: rest).takeWhile isWordChar :=
              mem_takeWhile_word_of_head (c :: rest) d hwd hd
            have hdtok : isTokChar d = false := head?_dropWhile_not isTokChar (c :: rest) d hd
            have hWall : (((c :: rest).takeWhile isWordChar).all isTokChar) = false := by
              rw [Bool.eq_false_iff]
              intro habs
              have hcontra := List.all_eq_true.mp habs d hdmem
              rw [hdtok] at hcontra
              simp at hcontra
            rw [wordRuns_cons, if_pos (by simp [hw]), List.filter_cons]
            simp only [hWall, Bool.false_eq_true, if_false]
            rw [show (c :: rest).dropWhile isWordChar = rest.dropWhile isWordChar from
              by rw [List.dropWhile_cons, hw]; simp]
            exact (ih rest hrest).2
      · rw [findTokensAux_cons, if_neg (by simp)]
        cases hw : isWordChar c with
        | true =>
          rw [show (c :: rest).dropWhile isWordChar = rest.dropWhile isWordChar from
            by rw [List.dropWhile_cons, hw]; simp]
          exact (ih rest hrest).2
        | false =>
          rw [show (c :: rest).dropWhile isWordChar = c :: rest from
            by rw [List.dropWhile_cons, hw]; simp]
          rw [wordRuns_cons, if_neg (by simp [hw])]
          exact (ih rest hrest).1

/-- C3 counterexample: `_` is a punctuation character (Unicode class
Pc, a member of `string.punctuation`), yet it does not act as a
separator: under the claimed reading `"a_b"` splits into the tokens
`"a"` and `"b"` — as `"a.b"` indeed does — but `tokenize_text("a_b")`
returns no token at all, because `_` is a regex word character and the
runs `a`, `b` are not bounded by word boundaries. -/
theorem tokenize_text_counterexample :
    tokenize_text ("a_b".data) = []
    ∧ tokenize_text ("a.b".data) = [['a'], ['b']]
    ∧ tokenize_text ("a_b".data) ≠ [['a'], ['b']] := by
  refine ⟨?_, ?_, ?_⟩ <;> simp [tokenize_text, findTokensAux, isTokChar, isWordChar]

/-- C3 (amended): `tokenize_text` lowercases its input and returns, in
order, exactly the maximal word-character runs that consist solely of
`[a-z0-9]` characters; punctuation and whitespace other than the word
character `_` therefore act purely as separators, while a maximal run
containing an underscore is dropped in its entirety.  The
specification's example tokenizes as stated. -/
theorem tokenize_text_spec (s : List Char) :
    tokenize_text s = (wordRuns (s.map Char.toLower)).filter (fun r => r.all isTokChar)
    ∧ tokenize_text ("Hello, world! --- This is a test.".data)
        = ["hello".data, "world".data, "this".data, "is".data, "a".data, "test".data] := by
  refine ⟨(findTokensAux_eq (s.map Char.toLower).length (s.map Char.toLower) le_rfl).1, ?_⟩
  simp [tokenize_text, findTokensAux, isTokChar, isWordChar]

/-! ### The heap view of the cleaning functions -/

theorem PyHeap.push_length (hh : PyHeap) (out : ℕ) (v : Value) :
    (hh.push out v).cells.length = hh.cells.length := by
  simp [PyHeap.push, PyHeap.write]

theorem PyHeap.read_push_ne (hh : PyHeap) (out r : ℕ) (v : Value) (hne : r ≠ out) :
    (hh.push out v).read r = hh.read r := by
  simp only [PyHeap.push, PyHeap.write, PyHeap.read, List.getD_eq_getElem?_getD]
  rw [List.getElem?_set_ne (Ne.symm hne)]

theorem PyHeap.read_push_self (hh : PyHeap) (out : ℕ) (v : Value)
    (hlt : out < hh.cells.length) :
    (hh.push out v).read out = hh.read out ++ [v] := by
  simp only [PyHeap.push, PyHeap.write, PyHeap.read, List.getD_eq_getElem?_getD]
  have hx : (hh.cells.set out (hh.cells[out]?.getD [] ++ [v]))[out]?
      = some (hh.cells[out]?.getD [] ++ [v]) := by
    rw [List.getElem?_set_self', List.getElem?_eq_getElem hlt]
    rfl
  rw [hx]
  rfl

theorem remove_loop (vals : List Value) :
    ∀ (hh : PyHeap) (out r : ℕ), r ≠ out → out < hh.cells.length →
      (vals.foldl (fun hh2 v => if isMissing v then hh2 else hh2.push out v) hh).read r
          = hh.read r
      ∧ (vals.foldl (fun hh2 v => if isMissing v then hh2 else hh2.push out v) hh).read out
          = hh.read out ++ vals.filter (fun v => !isMissing v)
      ∧ (vals.foldl (fun hh2 v => if isMissing v then hh2 else hh2.push out v) hh).cells.length
          = hh.cells.length := by
  induction vals with
  | nil => intro hh out r _ _; simp
  | cons v rest ih =>
    intro hh out r hne hlt
    cases hv : isMissing v with
    | true =>
      have hrec := ih hh out r hne hlt
      simpa [hv, List.filter_cons] using hrec
    | false =>
      have hlt2 : out < (hh.push out v).cells.length := by
        rw [PyHeap.push_length]
        exact hlt
      obtain ⟨h1, h2, h3⟩ := ih (hh.push out v) out r hne hlt2
      simp only [List.foldl_cons, hv, Bool.false_eq_true, if_false]
      refine ⟨?_, ?_, ?_⟩
      · rw [h1, PyHeap.read_push_ne hh out r v hne]
      · rw [h2, PyHeap.read_push_self hh out v hlt]
        simp [List.filter_cons, hv]
      · rw [h3, PyHeap.push_length]

theorem fill_loop (x : Value) (vals : List Value) :
    ∀ (hh : PyHeap) (out r : ℕ), r ≠ out → out < hh.cells.length →
      (vals.foldl (fun hh2 v => hh2.push out (if isMissing v then x else v)) hh).read r
          = hh.read r
      ∧ (vals.foldl (fun hh2 v => hh2.push out (if isMissing v then x else v)) hh).read out
          = hh.read out ++ vals.map (fun v => if isMissing v then x else v)
      ∧ (vals.foldl (fun hh2 v => hh2.push out (if isMissing v then x else v)) hh).cells.length
          = hh.cells.length := by
  induction vals with
  | nil => intro hh out r _ _; simp
  | cons v rest ih =>
    intro hh out r hne hlt
    have hlt2 : out < (hh.push out (if isMissing v then x else v)).cells.length := by
      rw [PyHeap.push_length]
      exact hlt
    obtain ⟨h1, h2, h3⟩ := ih (hh.push out (if isMissing v then x else v)) out r hne hlt2
    simp only [List.foldl_cons]
    refine ⟨?_, ?_, ?_⟩
    · rw [h1, PyHeap.read_push_ne _ out r _ hne]
    · rw [h2, PyHeap.read_push_self _ out _ hlt]
      simp
    · rw [h3, PyHeap.push_length]

/-- C9: neither cleaning function mutates its argument.  At the heap
level, `remove_missing_values` and `fill_missing_values` leave the
contents of the argument list object untouched, return a distinct
freshly allocated object, and that object holds exactly the value of
the corresponding pure function of the argument's contents. -/
theorem cleaning_no_mutation (h : PyHeap) (r : ℕ) (x : Value) (hr : r < h.cells.length) :
    ((remove_missing_heap h r).1.read r = h.read r
      ∧ (remove_missing_heap h r).2 ≠ r
      ∧ (remove_missing_heap h r).1.read (remove_missing_heap h r).2
          = remove_missing_values (h.read r))
    ∧ ((fill_missing_heap h r x).1.read r = h.read r
      ∧ (fill_missing_heap h r x).2 ≠ r
      ∧ (fill_missing_heap h r x).1.read (fill_missing_heap h r x).2
          = fill_missing_values (h.read r) x) := by
  have hne : r ≠ h.cells.length := Nat.ne_of_lt hr
  have halloc_read_r : (PyHeap.mk (h.cells ++ [[]])).read r = h.read r := by
    simp only [PyHeap.read, List.getD_eq_getElem?_getD]
    rw [List.getElem?_append_left hr]
  have halloc_read_out : (PyHeap.mk (h.cells ++ [[]])).read h.cells.length = [] := by
    simp only [PyHeap.read, List.getD_eq_getElem?_getD]
    rw [List.getElem?_concat_length]
    rfl
  have hlt2 : h.cells.length < (PyHeap.mk (h.cells ++ [[]])).cells.length := by simp
  constructor
  · obtain ⟨h1, h2, _⟩ := remove_loop ((PyHeap.mk (h.cells ++ [[]])).read r)
      (PyHeap.mk (h.cells ++ [[]])) h.cells.length r hne hlt2
    simp only [remove_missing_heap, PyHeap.alloc]
    refine ⟨h1.trans halloc_read_r, Ne.symm hne, ?_⟩
    rw [h2, halloc_read_out, halloc_read_r, remove_missing_eq_filter]
    simp
  · obtain ⟨h1, h2, _⟩ := fill_loop x ((PyHeap.mk (h.cells ++ [[]])).read r)
      (PyHeap.mk (h.cells ++ [[]])) h.cells.length r hne hlt2
    simp only [fill_missing_heap, PyHeap.alloc]
    refine ⟨h1.trans halloc_read_r, Ne.symm hne, ?_⟩
    rw [h2, halloc_read_out, halloc_read_r, fill_missing_eq_map]
    simp

/-- Witness for C9 on a one-object heap holding `[None, 1]`: the
argument object still holds `[None, 1]` after each call, and the
returned objects hold the cleaned and the filled lists. -/
theorem cleaning_no_mutation_witness :
    (remove_missing_heap ⟨[[Value.none, Value.int 1]]⟩ 0).1.read 0
        = [Value.none, Value.int 1]
    ∧ (remove_missing_heap ⟨[[Value.none, Value.int 1]]⟩ 0).1.read
        (remove_missing_heap ⟨[[Value.none, Value.int 1]]⟩ 0).2 = [Value.int 1]
    ∧ (fill_missing_heap ⟨[[Value.none, Value.int 1]]⟩ 0 (Value.int 5)).1.read 0
        = [Value.none, Value.int 1]
    ∧ (fill_missing_heap ⟨[[Value.none, Value.int 1]]⟩ 0 (Value.int 5)).1.read
        (fill_missing_heap ⟨[[Value.none, Value.int 1]]⟩ 0 (Value.int 5)).2
        = [Value.int 5, Value.int 1] := by
  have h := cleaning_no_mutation ⟨[[Value.none, Value.int 1]]⟩ 0 (Value.int 5) (by simp)
  refine ⟨?_, ?_, ?_, ?_⟩
  · rw [h.1.1]
    rfl
  · rw [h.1.2.2]
    rfl
  · rw [h.2.1]
    rfl
  · rw [h.2.2.2]
    rfl

/-- Witness for C7: the no-list-in-output clause applied to the member
`1` of the flattening of `[[1]]`. -/
theorem flatten_list_spec_witness :
    isList (Value.int 1) = false
    ∧ flatten_list [Value.list [Value.int 1]] = [Value.int 1] := by
  have h := flatten_list_spec [Value.list [Value.int 1]]
  refine ⟨h.2.1 (Value.int 1) ?_, by simp [flatten_list]⟩
  show Value.int 1 ∈ flatten_list [Value.list [Value.int 1]]
  simp [flatten_list]

/-- Witness for C10: the character-class clause applied to the member
`a` of the output on `"a"`. -/
theorem select_alphanumeric_and_spaces_spec_witness :
    ('a'.isAlphanum || 'a' = ' ' : Bool) = true := by
  exact (select_alphanumeric_and_spaces_spec ['a']).2.2.1 'a' (by decide)
